import Mathlib

/-
  Verification of the ditherui dithering engine.

  Shallow embedding of the Rust sources:
  - `src/colour/utils.rs` (quantize_colour, quantize_rgb, compute_rgb_error)
  - `src/pixel/rgb.rs` (RgbPixel::quantize, _weighed_euclidean_diff, get_error)
  - `src/pixel/comparisons.rs` (rgb_euclidean)
  - `src/dither/mod.rs` (cartesian_distance, get_closest_color_to)
  - `src/dither/error.rs` (ErrorPropagator::affect and the named kernel constants)
  - `src/dither/bayer.rs` (Bayer::dither_matrix, Bayer::affect)
  - `src/dither/errorpropagate.rs` (error_propagate_through_pixels, _rgb)

  Conventions: u8 channel values are ℕ (all arithmetic on them fits exactly in
  the Rust integer types used); i32/i64 arithmetic is ℤ with Rust `/` rendered
  as `Int.tdiv` (truncation toward zero); f32/f64 arithmetic is rendered as
  exact ℚ arithmetic (every concrete value the theorems below touch is exactly
  representable, e.g. the distances are sums of weighted integer squares).
  `f64::MAX` and `f32::MAX` are exact integers and appear as such.
-/

set_option exponentiation.threshold 1100
set_option maxRecDepth 4000

/-- RGB pixel with u8 channels, the `RgbPixel(u8, u8, u8)` of `src/pixel/rgb.rs`
and the `(u8, u8, u8)` triples of `src/dither/mod.rs`. -/
abbrev Pix : Type := ℕ × ℕ × ℕ

/-- A colour as three `f32` components, the `(f32, f32, f32)` triples of
`src/colour/utils.rs`, rendered exactly in ℚ. -/
abbrev Q3 : Type := ℚ × ℚ × ℚ

/-- The exact integer value of `f64::MAX` = (2 - 2^-52) * 2^1023, the initial
`closest_distance` in `RgbPixel::quantize`. -/
def f64MAX : ℤ := ((2 ^ 1024 - 2 ^ 971 : ℕ) : ℤ)

/-- The exact value of `f32::MAX` = (2 - 2^-23) * 2^127, the initial
`closest_distance` in `quantize_colour` (`src/colour/utils.rs`). -/
def f32MAX : ℚ := ((2 ^ 128 - 2 ^ 104 : ℕ) : ℚ)

/-- `RgbPixel::_weighed_euclidean_diff` (`src/pixel/rgb.rs` lines 189-197):
weights (3,4,2) when the FIRST argument's red channel `self.0 > 127`,
else (2,4,3); weighted sum of squared channel differences.  The f64
arithmetic is exact here (integers below 2^53), so the result is in ℤ. -/
def weighedEuclideanDiff (a b : Pix) : ℤ :=
  let m : ℤ × ℤ × ℤ := if 127 < a.1 then (3, 4, 2) else (2, 4, 3)
  m.1 * ((a.1 : ℤ) - b.1) ^ 2 + m.2.1 * ((a.2.1 : ℤ) - b.2.1) ^ 2
    + m.2.2 * ((a.2.2 : ℤ) - b.2.2) ^ 2

/-- `RgbPixel::get_difference` delegates to `_weighed_euclidean_diff`. -/
def RgbPixel.getDifference (a b : Pix) : ℤ := weighedEuclideanDiff a b

/-- `RgbPixel::quantize` (`src/pixel/rgb.rs` lines 86-99): linear scan keeping
the running minimum with strict `<`; NOTE the call is
`colour.get_difference(self)`, i.e. the palette entry is the FIRST argument
of the asymmetric distance.  `closest_distance` starts at `f64::MAX` and
`current_colour` starts at the original pixel. -/
def RgbPixel.quantize (c : Pix) (palette : List Pix) : Pix :=
  (palette.foldl
    (fun acc p =>
      if RgbPixel.getDifference p c < acc.2 then (p, RgbPixel.getDifference p c) else acc)
    (c, f64MAX)).1

/-- `RgbPixel::get_error` (`src/pixel/rgb.rs` lines 164-170): per-channel
signed difference as i32. -/
def RgbPixel.getError (a b : Pix) : ℤ × ℤ × ℤ :=
  ((a.1 : ℤ) - b.1, (a.2.1 : ℤ) - b.2.1, (a.2.2 : ℤ) - b.2.2)

/-- `rgb_euclidean` (`src/pixel/comparisons.rs` lines 8-17): the weight triple
is selected by `r_avg = (rgb_a.0 + rgb_b.0) / 2.0 > 0.5` — the AVERAGE of the
two red channels, not the first argument's red channel. -/
def rgb_euclidean (a b : Q3) : ℚ :=
  let r_avg := (a.1 + b.1) / 2
  let m : Q3 := if 1 / 2 < r_avg then (3, 4, 2) else (2, 4, 3)
  m.1 * (a.1 - b.1) ^ 2 + m.2.1 * (a.2.1 - b.2.1) ^ 2 + m.2.2 * (a.2.2 - b.2.2) ^ 2

/-- Modelled from the spec: `colour/comparisons.rs` is declared in
`src/colour/mod.rs` (`pub mod comparisons;`) and used by `src/colour/utils.rs`
(`rgb_weighted_euclidean`), but the file itself is absent from the sources.
Per spec §4.1 the distance is the weighted squared-Euclidean metric with
weights (3,4,2) when the first colour's red channel exceeds the domain
midpoint (1/2 in the normalized [0,1] domain) and (2,4,3) otherwise. -/
def rgb_weighted_euclidean (a b : Q3) : ℚ :=
  let m : Q3 := if 1 / 2 < a.1 then (3, 4, 2) else (2, 4, 3)
  m.1 * (a.1 - b.1) ^ 2 + m.2.1 * (a.2.1 - b.2.1) ^ 2 + m.2.2 * (a.2.2 - b.2.2) ^ 2

/-- `quantize_colour` (`src/colour/utils.rs` lines 31-51): linear scan with
strict `<` against a running minimum started at `f32::MAX`; `current_colour`
starts at the original, so an empty palette yields the original back.  The
distance function is a parameter and is applied as
`distance_fn(original, *colour)` — original first. -/
def quantize_colour (original : Q3) (palette : List Q3) (dist : Q3 → Q3 → ℚ) : Q3 :=
  (palette.foldl
    (fun acc p => if dist original p < acc.2 then (p, dist original p) else acc)
    (original, f32MAX)).1

/-- `quantize_rgb` (`src/colour/utils.rs` lines 53-61). -/
def quantize_rgb (original : Q3) (palette : List Q3) : Q3 :=
  quantize_colour original palette rgb_weighted_euclidean

/-- `compute_rgb_error` (`src/colour/utils.rs` lines 63-67). -/
def compute_rgb_error (main other : Q3) : Q3 :=
  (main.1 - other.1, main.2.1 - other.2.1, main.2.2 - other.2.2)

/-- `cartesian_distance` (`src/dither/mod.rs` lines 18-27): plain squared
euclidean followed by `u32` integer square root (`num::integer::Roots`,
i.e. the floor square root, which is `Nat.sqrt`). -/
def cartesian_distance (a b : Pix) : ℕ :=
  Nat.sqrt ((((b.1 : ℤ) - a.1) ^ 2).toNat + (((b.2.1 : ℤ) - a.2.1) ^ 2).toNat
    + (((b.2.2 : ℤ) - a.2.2) ^ 2).toNat)

/-- `get_closest_color_to` (`src/dither/mod.rs` lines 29-45): running minimum
started at `999999999` and `current_colour` started at `&(0,0,0)` — an empty
palette yields BLACK, not an error. -/
def get_closest_color_to (original : Pix) (palette : List Pix) : Pix :=
  (palette.foldl
    (fun acc p =>
      if cartesian_distance p original < acc.2 then (p, cartesian_distance p original) else acc)
    ((0, 0, 0), 999999999)).1

/-- The "earliest entry minimizing d" predicate: `c` occurs in `l`, every entry
strictly before that occurrence has strictly larger `d`, and `c` minimizes `d`
over all of `l`. -/
def FirstMin {α : Type} {β : Type} [LinearOrder β] (d : α → β) (l : List α) (c : α) : Prop :=
  ∃ l₁ l₂, l = l₁ ++ c :: l₂ ∧ (∀ p ∈ l₁, d c < d p) ∧ (∀ p ∈ l, d c ≤ d p)

/-- Characterization of the running-strict-minimum fold shared by
`RgbPixel::quantize`, `quantize_colour` and `get_closest_color_to`: either no
entry beats the initial bound and the initial state survives, or the result is
the earliest entry of minimal distance (strict `<` means the first minimizer
wins ties). -/
theorem foldl_strictmin_spec {α : Type} {β : Type} [LinearOrder β]
    (d : α → β) (l : List α) (c0 : α) (b0 : β) :
    ((∀ p ∈ l, b0 ≤ d p) ∧
      l.foldl (fun acc p => if d p < acc.2 then (p, d p) else acc) (c0, b0) = (c0, b0)) ∨
    (∃ l₁ c l₂, l = l₁ ++ c :: l₂ ∧ d c < b0 ∧ (∀ p ∈ l₁, d c < d p) ∧
      (∀ p ∈ l₂, d c ≤ d p) ∧
      l.foldl (fun acc p => if d p < acc.2 then (p, d p) else acc) (c0, b0) = (c, d c)) := by
  induction l generalizing c0 b0 with
  | nil => exact Or.inl ⟨by simp, rfl⟩
  | cons a t ih =>
    by_cases ha : d a < b0
    · rcases ih a (d a) with ⟨hall, heq⟩ | ⟨t₁, c, t₂, hsplit, hlt, hbefore, hafter, heq⟩
      · refine Or.inr ⟨[], a, t, by simp, ha, by simp, hall, ?_⟩
        simpa [List.foldl_cons, if_pos ha] using heq
      · refine Or.inr ⟨a :: t₁, c, t₂, by simp [hsplit], lt_trans hlt ha, ?_, hafter, ?_⟩
        · intro p hp
          rcases List.mem_cons.mp hp with rfl | hp
          · exact hlt
          · exact hbefore p hp
        · simpa [List.foldl_cons, if_pos ha] using heq
    · push_neg at ha
      rcases ih c0 b0 with ⟨hall, heq⟩ | ⟨t₁, c, t₂, hsplit, hlt, hbefore, hafter, heq⟩
      · refine Or.inl ⟨?_, ?_⟩
        · intro p hp
          rcases List.mem_cons.mp hp with rfl | hp
          · exact ha
          · exact hall p hp
        · simpa [List.foldl_cons, if_neg (not_lt.mpr ha)] using heq
      · refine Or.inr ⟨a :: t₁, c, t₂, by simp [hsplit], hlt, ?_, hafter, ?_⟩
        · intro p hp
          rcases List.mem_cons.mp hp with rfl | hp
          · exact lt_of_lt_of_le hlt ha
          · exact hbefore p hp
        · simpa [List.foldl_cons, if_neg (not_lt.mpr ha)] using heq

/-- A `FirstMin` element of the non-initial branch of `foldl_strictmin_spec`. -/
theorem firstMin_of_split {α : Type} {β : Type} [LinearOrder β] {d : α → β}
    {l l₁ l₂ : List α} {c : α} (hsplit : l = l₁ ++ c :: l₂)
    (hbefore : ∀ p ∈ l₁, d c < d p) (hafter : ∀ p ∈ l₂, d c ≤ d p) :
    FirstMin d l c := by
  refine ⟨l₁, l₂, hsplit, hbefore, ?_⟩
  intro p hp
  rw [hsplit] at hp
  rcases List.mem_append.mp hp with hp | hp
  · exact le_of_lt (hbefore p hp)
  · rcases List.mem_cons.mp hp with rfl | hp
    · exact le_refl _
    · exact hafter p hp

/-- A u8-valued pixel: each channel is at most 255 (the Rust `u8` bound). -/
def PixInDomain (p : Pix) : Prop := p.1 ≤ 255 ∧ p.2.1 ≤ 255 ∧ p.2.2 ≤ 255

/-- For u8 pixels, the weighted euclidean distance is far below `f64::MAX`,
so the first palette entry always beats the initial running minimum. -/
theorem weighedEuclideanDiff_lt_f64MAX {a b : Pix}
    (ha : PixInDomain a) (hb : PixInDomain b) :
    weighedEuclideanDiff a b < f64MAX := by
  obtain ⟨ha1, ha2, ha3⟩ := ha
  obtain ⟨hb1, hb2, hb3⟩ := hb
  have hsq : ∀ x y : ℕ, x ≤ 255 → y ≤ 255 → ((x : ℤ) - y) ^ 2 ≤ 255 ^ 2 := by
    intro x y hx hy
    have h1 : ((x : ℤ) - y) ≤ 255 := by
      have : (x : ℤ) ≤ 255 := by exact_mod_cast hx
      omega
    have h2 : (-255 : ℤ) ≤ (x : ℤ) - y := by
      have : (y : ℤ) ≤ 255 := by exact_mod_cast hy
      omega
    nlinarith
  have h1 := hsq a.1 b.1 ha1 hb1
  have h2 := hsq a.2.1 b.2.1 ha2 hb2
  have h3 := hsq a.2.2 b.2.2 ha3 hb3
  have hbig : (780300 : ℤ) < f64MAX := by decide
  by_cases hc : 127 < a.1
  · simp only [weighedEuclideanDiff, if_pos hc]
    nlinarith
  · simp only [weighedEuclideanDiff, if_neg hc]
    nlinarith

/-- C1 (amended): `quantize_colour` returns the earliest palette entry
minimizing `dist(C, entry)` (strict `<` so the first minimizer wins), is a
member of the palette, and minimizes the distance — provided the palette is
non-empty and every distance is below the `f32::MAX` sentinel.
`RgbPixel::quantize` does the same but with respect to
`distance(entry, C)`: the palette entry is passed as the FIRST argument of the
asymmetric distance, so it selects the earliest minimizer of
`weighedEuclideanDiff(entry, C)`, not of `distance(C, entry)`. -/
theorem quantize_earliest_minimizer
    (C : Q3) (P : List Q3) (dist : Q3 → Q3 → ℚ)
    (hne : P ≠ []) (hb : ∀ p ∈ P, dist C p < f32MAX)
    (c : Pix) (P2 : List Pix) (hne2 : P2 ≠ [])
    (hc : PixInDomain c) (hP2 : ∀ p ∈ P2, PixInDomain p) :
    (quantize_colour C P dist ∈ P ∧ FirstMin (fun p => dist C p) P (quantize_colour C P dist)) ∧
    (RgbPixel.quantize c P2 ∈ P2 ∧
      FirstMin (fun p => weighedEuclideanDiff p c) P2 (RgbPixel.quantize c P2)) := by
  constructor
  · rcases foldl_strictmin_spec (fun p => dist C p) P C f32MAX with ⟨hall, _⟩ |
      ⟨l₁, cc, l₂, hsplit, _, hbefore, hafter, heq⟩
    · obtain ⟨p, hp⟩ := List.exists_mem_of_ne_nil P hne
      exact absurd (hb p hp) (not_lt.mpr (hall p hp))
    · have hres : quantize_colour C P dist = cc := by
        unfold quantize_colour
        rw [heq]
      rw [hres]
      exact ⟨hsplit ▸ List.mem_append_right l₁ (List.mem_cons_self cc l₂),
        firstMin_of_split hsplit hbefore hafter⟩
  · rcases foldl_strictmin_spec (fun p => weighedEuclideanDiff p c) P2 c f64MAX with ⟨hall, _⟩ |
      ⟨l₁, cc, l₂, hsplit, _, hbefore, hafter, heq⟩
    · obtain ⟨p, hp⟩ := List.exists_mem_of_ne_nil P2 hne2
      exact absurd (weighedEuclideanDiff_lt_f64MAX (hP2 p hp) hc)
        (not_lt.mpr (hall p hp))
    · have hres : RgbPixel.quantize c P2 = cc := by
        unfold RgbPixel.quantize RgbPixel.getDifference
        rw [heq]
      rw [hres]
      exact ⟨hsplit ▸ List.mem_append_right l₁ (List.mem_cons_self cc l₂),
        firstMin_of_split hsplit hbefore hafter⟩

/-- C1 witness: concrete instances of `quantize_earliest_minimizer`. -/
theorem quantize_earliest_minimizer_witness :
    (∀ p ∈ ([((1 : ℚ), 0, 0)] : List Q3), rgb_weighted_euclidean (0, 0, 0) p < f32MAX) ∧
    quantize_colour (0, 0, 0) [((1 : ℚ), 0, 0)] rgb_weighted_euclidean
      ∈ ([((1 : ℚ), 0, 0)] : List Q3) ∧
    RgbPixel.quantize (10, 20, 30) [(0, 0, 0), (255, 255, 255)]
      ∈ ([(0, 0, 0), (255, 255, 255)] : List Pix) := by
  have hb : ∀ p ∈ ([((1 : ℚ), 0, 0)] : List Q3), rgb_weighted_euclidean (0, 0, 0) p < f32MAX := by
    intro p hp
    simp only [List.mem_singleton] at hp
    subst hp
    norm_num [rgb_weighted_euclidean, f32MAX]
  have h := quantize_earliest_minimizer (0, 0, 0) [((1 : ℚ), 0, 0)] rgb_weighted_euclidean
    (by simp) hb (10, 20, 30) [(0, 0, 0), (255, 255, 255)] (by simp)
    (by constructor <;> norm_num) (by intro p hp; fin_cases hp <;> constructor <;> norm_num)
  exact ⟨hb, h.1.1, h.2.1⟩

/-- C1 counterexample: `RgbPixel::quantize` passes the palette entry as the
FIRST argument of the asymmetric distance (`colour.get_difference(self)`), so
for C = (128,0,0) and palette [(126,0,2), (125,0,0)] the entry (126,0,2) is the
unique minimizer of `distance(C, entry)` (20 < 27), yet the function returns
(125,0,0) — it does not minimize `distance(C, entry)` and the returned entry's
distance to C is not minimal. -/
theorem quantize_entry_first_cex :
    RgbPixel.quantize (128, 0, 0) [(126, 0, 2), (125, 0, 0)] = (125, 0, 0) ∧
    weighedEuclideanDiff (128, 0, 0) (126, 0, 2) = 20 ∧
    weighedEuclideanDiff (128, 0, 0) (125, 0, 0) = 27 := by
  refine ⟨?_, by decide, by decide⟩
  decide

/-- C6 (amended): with an empty palette the quantizers do not fail — there is
no `EmptyPalette` error anywhere in the code; they silently default:
`quantize_colour` (and hence `quantize_rgb`) returns the original colour
unchanged, `RgbPixel::quantize` returns the input pixel, and
`get_closest_color_to` returns black `(0,0,0)`. -/
theorem quantize_empty_palette_default :
    (∀ (C : Q3) (dist : Q3 → Q3 → ℚ), quantize_colour C [] dist = C) ∧
    (∀ c : Pix, RgbPixel.quantize c [] = c) ∧
    (∀ c : Pix, get_closest_color_to c [] = (0, 0, 0)) :=
  ⟨fun _ _ => rfl, fun _ => rfl, fun _ => rfl⟩

/-- C6 counterexample: concrete empty-palette calls return silently defaulted
colours (the input colour, resp. black) instead of surfacing an error. -/
theorem quantize_empty_palette_cex :
    quantize_colour (1 / 2, 1 / 2, 1 / 2) [] rgb_weighted_euclidean = (1 / 2, 1 / 2, 1 / 2) ∧
    RgbPixel.quantize (7, 8, 9) [] = (7, 8, 9) ∧
    get_closest_color_to (5, 5, 5) [] = (0, 0, 0) :=
  ⟨rfl, rfl, rfl⟩

/-- C7 (amended): `rgb_euclidean` selects its weight triple from the AVERAGE
of the two red channels ((3,4,2) when `(a.r + b.r)/2 > 1/2`, else (2,4,3)),
while `RgbPixel::_weighed_euclidean_diff` selects it from the first argument's
red channel alone ((3,4,2) when `a.r > 127`, else (2,4,3)); both are weighted
squared-Euclidean sums. -/
theorem distance_weight_selection (a b : Q3) (p q : Pix) :
    (1 / 2 < (a.1 + b.1) / 2 →
      rgb_euclidean a b =
        3 * (a.1 - b.1) ^ 2 + 4 * (a.2.1 - b.2.1) ^ 2 + 2 * (a.2.2 - b.2.2) ^ 2) ∧
    ((a.1 + b.1) / 2 ≤ 1 / 2 →
      rgb_euclidean a b =
        2 * (a.1 - b.1) ^ 2 + 4 * (a.2.1 - b.2.1) ^ 2 + 3 * (a.2.2 - b.2.2) ^ 2) ∧
    (127 < p.1 →
      weighedEuclideanDiff p q =
        3 * ((p.1 : ℤ) - q.1) ^ 2 + 4 * ((p.2.1 : ℤ) - q.2.1) ^ 2
          + 2 * ((p.2.2 : ℤ) - q.2.2) ^ 2) ∧
    (p.1 ≤ 127 →
      weighedEuclideanDiff p q =
        2 * ((p.1 : ℤ) - q.1) ^ 2 + 4 * ((p.2.1 : ℤ) - q.2.1) ^ 2
          + 3 * ((p.2.2 : ℤ) - q.2.2) ^ 2) := by
  refine ⟨fun h => ?_, fun h => ?_, fun h => ?_, fun h => ?_⟩
  · simp only [rgb_euclidean, if_pos h]
  · simp only [rgb_euclidean, if_neg (not_lt.mpr h)]
  · simp only [weighedEuclideanDiff, if_pos h]
  · simp only [weighedEuclideanDiff, if_neg (not_lt.mpr h)]

/-- C7 witness: concrete instances of `distance_weight_selection`. -/
theorem distance_weight_selection_witness :
    ((1 : ℚ) / 2 < ((4 / 5 : ℚ) + 4 / 5) / 2) ∧
    rgb_euclidean (4 / 5, 0, 0) (4 / 5, 0, 0) =
      3 * ((4 / 5 : ℚ) - 4 / 5) ^ 2 + 4 * ((0 : ℚ) - 0) ^ 2 + 2 * ((0 : ℚ) - 0) ^ 2 ∧
    (127 < 200) ∧
    weighedEuclideanDiff (200, 0, 0) (3, 0, 0) =
      3 * ((200 : ℤ) - 3) ^ 2 + 4 * ((0 : ℤ) - 0) ^ 2 + 2 * ((0 : ℤ) - 0) ^ 2 :=
  ⟨by norm_num, (distance_weight_selection (4 / 5, 0, 0) (4 / 5, 0, 0) (0, 0, 0) (0, 0, 0)).1
      (by norm_num),
    by norm_num, (distance_weight_selection (0, 0, 0) (0, 0, 0) (200, 0, 0) (3, 0, 0)).2.2.1
      (by norm_num)⟩

/-- C7 counterexample: for a = (2/5,0,0), b = (4/5,0,0) the average red is 3/5
(above the midpoint) so `rgb_euclidean` uses weights (3,4,2) and returns 12/25,
whereas the claimed first-argument rule (a.r = 2/5 ≤ 1/2, weights (2,4,3))
predicts 8/25. -/
theorem rgb_euclidean_avg_red_cex :
    rgb_euclidean (2 / 5, 0, 0) (4 / 5, 0, 0) = 12 / 25 ∧
    2 * ((2 / 5 : ℚ) - 4 / 5) ^ 2 + 4 * ((0 : ℚ) - 0) ^ 2 + 3 * ((0 : ℚ) - 0) ^ 2 = 8 / 25 ∧
    (12 / 25 : ℚ) ≠ 8 / 25 := by
  refine ⟨?_, by norm_num, by norm_num⟩
  norm_num [rgb_euclidean]

/-- `ErrorPropagator` (`src/dither/error.rs` lines 41-65): a named diffusion
kernel; `matrix` is the tap list `(dx, dy, portion)` with i8 offsets and u8
weights, `portions` the u16 divisor. -/
structure ErrorPropagator where
  name : String
  matrix : List (ℤ × ℤ × ℕ)
  portions : ℕ

/-- `FLOYD_STEINBERG` (`src/dither/error.rs` lines 148-155). -/
def FLOYD_STEINBERG : ErrorPropagator :=
  ⟨"floyd-steinberg", [(1, 0, 7), (-1, 1, 5), (0, 1, 3), (1, 1, 1)], 16⟩

/-- `JARVIS_JUDICE_NINKE` (`src/dither/error.rs` lines 166-174). -/
def JARVIS_JUDICE_NINKE : ErrorPropagator :=
  ⟨"jarvis-judice-ninke",
    [(1, 0, 7), (2, 0, 5), (-2, 1, 3), (-1, 1, 5), (0, 1, 7), (1, 1, 5), (2, 1, 3),
      (-2, 2, 1), (-1, 2, 3), (0, 2, 5), (1, 2, 3), (2, 2, 1)], 48⟩

/-- `ATKINSON` (`src/dither/error.rs` lines 185-193). -/
def ATKINSON : ErrorPropagator :=
  ⟨"atkinson", [(1, 0, 1), (2, 0, 1), (-1, 1, 1), (0, 1, 1), (1, 1, 1), (0, 2, 1)], 8⟩

/-- `BURKES` (`src/dither/error.rs` lines 203-210). -/
def BURKES : ErrorPropagator :=
  ⟨"burkes", [(1, 0, 8), (2, 0, 4), (-2, 1, 2), (-1, 1, 4), (0, 1, 8), (1, 1, 4), (2, 1, 2)], 32⟩

/-- `STUCKI` (`src/dither/error.rs` lines 221-229). -/
def STUCKI : ErrorPropagator :=
  ⟨"stucki",
    [(1, 0, 8), (2, 0, 4), (-2, 1, 2), (-1, 1, 4), (0, 1, 8), (1, 1, 4), (2, 1, 2),
      (-2, 2, 1), (-1, 2, 2), (0, 2, 4), (1, 2, 2), (2, 2, 1)], 42⟩

/-- `SIERRA` (`src/dither/error.rs` lines 240-248). -/
def SIERRA : ErrorPropagator :=
  ⟨"sierra",
    [(1, 0, 5), (2, 0, 3), (-2, 1, 2), (-1, 1, 4), (0, 1, 5), (1, 1, 4), (2, 1, 2),
      (-1, 2, 2), (0, 2, 3), (1, 2, 2)], 32⟩

/-- `SIERRA_TWO_ROW` (`src/dither/error.rs` lines 258-265). -/
def SIERRA_TWO_ROW : ErrorPropagator :=
  ⟨"sierra-two-row",
    [(1, 0, 4), (2, 0, 3), (-2, 1, 1), (-1, 1, 2), (0, 1, 3), (1, 1, 2), (2, 1, 1)], 16⟩

/-- `SIERRA_LITE` (`src/dither/error.rs` lines 275-282). -/
def SIERRA_LITE : ErrorPropagator :=
  ⟨"sierra-lite", [(1, 0, 2), (-1, 1, 1), (0, 1, 1)], 4⟩

/-- The legacy kernel tables generated by `error_prop_mod!` in
`src/dither/errorpropagate.rs` lines 146-234: `(MATRIX, tap count, divisor)`
per module.  Offsets and weights are verbatim from the macro invocations. -/
def floydsteinberg_MATRIX : List (ℤ × ℤ × ℕ) × ℕ :=
  ([(1, 0, 7), (-1, 1, 5), (0, 1, 3), (1, 1, 1)], 16)

/-- Legacy `jarvisjudiceninke::MATRIX` with its divisor. -/
def jarvisjudiceninke_MATRIX : List (ℤ × ℤ × ℕ) × ℕ :=
  ([(1, 0, 7), (2, 0, 5), (-2, 1, 3), (-1, 1, 5), (0, 1, 7), (1, 1, 5), (2, 1, 3),
    (-2, 2, 1), (-1, 2, 3), (0, 2, 5), (1, 2, 3), (2, 2, 1)], 48)

/-- Legacy `atkinson::MATRIX` with its divisor. -/
def atkinson_MATRIX : List (ℤ × ℤ × ℕ) × ℕ :=
  ([(1, 0, 1), (2, 0, 1), (-1, 1, 1), (0, 1, 1), (1, 1, 1), (0, 2, 1)], 8)

/-- Legacy `burkes::MATRIX` with its divisor. -/
def burkes_MATRIX : List (ℤ × ℤ × ℕ) × ℕ :=
  ([(1, 0, 8), (2, 0, 4), (-2, 1, 2), (-1, 1, 4), (0, 1, 8), (1, 1, 4), (2, 1, 2)], 32)

/-- Legacy `stucki::MATRIX` with its divisor. -/
def stucki_MATRIX : List (ℤ × ℤ × ℕ) × ℕ :=
  ([(1, 0, 8), (2, 0, 4), (-2, 1, 2), (-1, 1, 4), (0, 1, 8), (1, 1, 4), (2, 1, 2),
    (-2, 2, 1), (-1, 2, 2), (0, 2, 4), (1, 2, 2), (2, 2, 1)], 42)

/-- Legacy `sierra::MATRIX` with its divisor. -/
def sierra_MATRIX : List (ℤ × ℤ × ℕ) × ℕ :=
  ([(1, 0, 5), (2, 0, 3), (-2, 1, 2), (-1, 1, 4), (0, 1, 5), (1, 1, 4), (2, 1, 2),
    (-1, 2, 2), (0, 2, 3), (1, 2, 2)], 32)

/-- Legacy `sierra::TWO_ROW_MATRIX` with its divisor. -/
def sierra_TWO_ROW_MATRIX : List (ℤ × ℤ × ℕ) × ℕ :=
  ([(1, 0, 4), (2, 0, 3), (-2, 1, 1), (-1, 1, 2), (0, 1, 3), (1, 1, 2), (2, 1, 1)], 16)

/-- Legacy `sierra::LITE_MATRIX` with its divisor. -/
def sierra_LITE_MATRIX : List (ℤ × ℤ × ℕ) × ℕ :=
  ([(1, 0, 2), (-1, 1, 1), (0, 1, 1)], 4)

/-- C9: every named kernel constant reproduces the specification table
exactly (taps in order, with divisor), the legacy `error_prop_mod!` tables
agree with the constants, and Atkinson's tap-weight sum is 6, strictly less
than its divisor 8 (only 6/8 of the error is redistributed). -/
theorem kernel_table_fidelity :
    (FLOYD_STEINBERG.matrix = [(1, 0, 7), (-1, 1, 5), (0, 1, 3), (1, 1, 1)] ∧
      FLOYD_STEINBERG.portions = 16) ∧
    (JARVIS_JUDICE_NINKE.matrix =
        [(1, 0, 7), (2, 0, 5), (-2, 1, 3), (-1, 1, 5), (0, 1, 7), (1, 1, 5), (2, 1, 3),
          (-2, 2, 1), (-1, 2, 3), (0, 2, 5), (1, 2, 3), (2, 2, 1)] ∧
      JARVIS_JUDICE_NINKE.portions = 48) ∧
    (ATKINSON.matrix = [(1, 0, 1), (2, 0, 1), (-1, 1, 1), (0, 1, 1), (1, 1, 1), (0, 2, 1)] ∧
      ATKINSON.portions = 8) ∧
    (BURKES.matrix =
        [(1, 0, 8), (2, 0, 4), (-2, 1, 2), (-1, 1, 4), (0, 1, 8), (1, 1, 4), (2, 1, 2)] ∧
      BURKES.portions = 32) ∧
    (STUCKI.matrix =
        [(1, 0, 8), (2, 0, 4), (-2, 1, 2), (-1, 1, 4), (0, 1, 8), (1, 1, 4), (2, 1, 2),
          (-2, 2, 1), (-1, 2, 2), (0, 2, 4), (1, 2, 2), (2, 2, 1)] ∧
      STUCKI.portions = 42) ∧
    (SIERRA.matrix =
        [(1, 0, 5), (2, 0, 3), (-2, 1, 2), (-1, 1, 4), (0, 1, 5), (1, 1, 4), (2, 1, 2),
          (-1, 2, 2), (0, 2, 3), (1, 2, 2)] ∧
      SIERRA.portions = 32) ∧
    (SIERRA_TWO_ROW.matrix =
        [(1, 0, 4), (2, 0, 3), (-2, 1, 1), (-1, 1, 2), (0, 1, 3), (1, 1, 2), (2, 1, 1)] ∧
      SIERRA_TWO_ROW.portions = 16) ∧
    (SIERRA_LITE.matrix = [(1, 0, 2), (-1, 1, 1), (0, 1, 1)] ∧ SIERRA_LITE.portions = 4) ∧
    (floydsteinberg_MATRIX = (FLOYD_STEINBERG.matrix, FLOYD_STEINBERG.portions) ∧
      jarvisjudiceninke_MATRIX = (JARVIS_JUDICE_NINKE.matrix, JARVIS_JUDICE_NINKE.portions) ∧
      atkinson_MATRIX = (ATKINSON.matrix, ATKINSON.portions) ∧
      burkes_MATRIX = (BURKES.matrix, BURKES.portions) ∧
      stucki_MATRIX = (STUCKI.matrix, STUCKI.portions) ∧
      sierra_MATRIX = (SIERRA.matrix, SIERRA.portions) ∧
      sierra_TWO_ROW_MATRIX = (SIERRA_TWO_ROW.matrix, SIERRA_TWO_ROW.portions) ∧
      sierra_LITE_MATRIX = (SIERRA_LITE.matrix, SIERRA_LITE.portions)) ∧
    ((ATKINSON.matrix.map (fun t => t.2.2)).sum = 6 ∧
      (ATKINSON.matrix.map (fun t => t.2.2)).sum < ATKINSON.portions) :=
  ⟨⟨rfl, rfl⟩, ⟨rfl, rfl⟩, ⟨rfl, rfl⟩, ⟨rfl, rfl⟩, ⟨rfl, rfl⟩, ⟨rfl, rfl⟩, ⟨rfl, rfl⟩,
    ⟨rfl, rfl⟩, ⟨rfl, rfl, rfl, rfl, rfl, rfl, rfl, rfl⟩, rfl, by norm_num [ATKINSON]⟩

/-- `RgbImageRepr` (`src/utils/image.rs`, used throughout `src/dither`): a
row-major grid of `[u8; 3]` pixels, `Vec<Vec<[u8; 3]>>`. -/
abbrev Img : Type := List (List Pix)

/-- In-place update of the element at index `n` (identity when out of range),
the `get_mut`-and-assign idiom of the Rust sources. -/
def listModify {α : Type} (f : α → α) : ℕ → List α → List α
  | _, [] => []
  | 0, a :: as => f a :: as
  | n + 1, a :: as => a :: listModify f n as

theorem listModify_nil {α : Type} (f : α → α) (n : ℕ) : listModify f n [] = [] := by
  cases n <;> rfl

theorem length_listModify {α : Type} (f : α → α) (n : ℕ) (l : List α) :
    (listModify f n l).length = l.length := by
  induction l generalizing n with
  | nil => rw [listModify_nil]
  | cons a as ih =>
    cases n with
    | zero => rfl
    | succ m => simpa [listModify] using ih m

theorem getD_listModify_self {α : Type} (f : α → α) (n : ℕ) (l : List α) (d : α)
    (h : n < l.length) : (listModify f n l).getD n d = f (l.getD n d) := by
  induction l generalizing n with
  | nil => simp at h
  | cons a as ih =>
    cases n with
    | zero => rfl
    | succ m =>
      simp only [List.length_cons, Nat.succ_lt_succ_iff] at h
      simpa [listModify] using ih m h

theorem getD_listModify_ne {α : Type} (f : α → α) (n m : ℕ) (l : List α) (d : α)
    (h : n ≠ m) : (listModify f n l).getD m d = l.getD m d := by
  induction l generalizing n m with
  | nil => rw [listModify_nil]
  | cons a as ih =>
    cases n with
    | zero =>
      cases m with
      | zero => exact absurd rfl h
      | succ k => rfl
    | succ j =>
      cases m with
      | zero => rfl
      | succ k => simpa [listModify] using ih j k (fun hc => h (by omega))

theorem mem_listModify {α : Type} {f : α → α} {n : ℕ} {l : List α} {q : α}
    (h : q ∈ listModify f n l) : q ∈ l ∨ ∃ a ∈ l, q = f a := by
  induction l generalizing n with
  | nil => simp [listModify] at h
  | cons a as ih =>
    cases n with
    | zero =>
      rcases List.mem_cons.mp h with rfl | h
      · exact Or.inr ⟨a, List.mem_cons_self a as, rfl⟩
      · exact Or.inl (List.mem_cons_of_mem a h)
    | succ m =>
      rcases List.mem_cons.mp h with rfl | h
      · exact Or.inl (List.mem_cons_self q as)
      · rcases ih h with h | ⟨b, hb, rfl⟩
        · exact Or.inl (List.mem_cons_of_mem a h)
        · exact Or.inr ⟨b, List.mem_cons_of_mem a hb, rfl⟩

/-- Row `y` of an image (empty when out of range, mirroring `Vec::get`). -/
def getRow (img : Img) (y : ℕ) : List Pix := img.getD y []

/-- Pixel at row `y`, column `x` (black default out of range). -/
def getPixel (img : Img) (y x : ℕ) : Pix := (getRow img y).getD x (0, 0, 0)

/-- Apply `f` to the pixel at row `y`, column `x` (no-op out of range: the
Rust sources reach pixels through bounds-checked `get_mut`). -/
def modifyPixel (img : Img) (y x : ℕ) (f : Pix → Pix) : Img :=
  listModify (fun row => listModify f x row) y img

/-- Direct store `image[y][x] = p`. -/
def setPixel (img : Img) (y x : ℕ) (p : Pix) : Img :=
  modifyPixel img y x (fun _ => p)

theorem length_modifyPixel (img : Img) (y x : ℕ) (f : Pix → Pix) :
    (modifyPixel img y x f).length = img.length :=
  length_listModify _ y img

theorem getRow_modifyPixel (img : Img) (y x : ℕ) (f : Pix → Pix) (j : ℕ) :
    getRow (modifyPixel img y x f) j =
      if y = j then listModify f x (getRow img j) else getRow img j := by
  by_cases h : y = j
  · subst h
    rw [if_pos rfl]
    by_cases hy : y < img.length
    · exact getD_listModify_self _ y img [] hy
    · have h1 : getRow (modifyPixel img y x f) y = [] := by
        unfold getRow modifyPixel
        refine List.getD_eq_default _ _ ?_
        rw [length_listModify]
        omega
      have h2 : getRow img y = [] := List.getD_eq_default _ _ (by omega)
      rw [h1, h2, listModify_nil]
  · rw [if_neg h]
    exact getD_listModify_ne _ y j img [] h

theorem rowlen_modifyPixel (img : Img) (y x : ℕ) (f : Pix → Pix) (j : ℕ) :
    (getRow (modifyPixel img y x f) j).length = (getRow img j).length := by
  rw [getRow_modifyPixel]
  by_cases h : y = j <;> simp [h, length_listModify]

theorem getPixel_modifyPixel (img : Img) (y x : ℕ) (f : Pix → Pix) (j i : ℕ) :
    getPixel (modifyPixel img y x f) j i =
      if y = j ∧ x = i ∧ i < (getRow img j).length then f (getPixel img j i)
      else getPixel img j i := by
  unfold getPixel
  rw [getRow_modifyPixel]
  by_cases hy : y = j
  · subst hy
    rw [if_pos rfl]
    by_cases hx : x = i
    · subst hx
      by_cases hlt : x < (getRow img y).length
      · rw [if_pos ⟨rfl, rfl, hlt⟩]
        exact getD_listModify_self _ x (getRow img y) (0, 0, 0) hlt
      · rw [if_neg (fun hc => hlt hc.2.2)]
        rw [List.getD_eq_default _ _ (by rw [length_listModify]; omega),
          List.getD_eq_default _ _ (by omega)]
    · rw [if_neg (fun hc => hx hc.2.1)]
      exact getD_listModify_ne _ x i (getRow img y) (0, 0, 0) hx
  · rw [if_neg hy, if_neg (fun hc => hy hc.1)]

/-- Modelled from the spec: `get_dimensions_of_matrix` is imported from
`crate::utils::image` by `src/effect.rs` and `src/dither/error.rs`, but the
`utils/image.rs` revision in src lacks it; per its uses (and `Bayer::affect`,
which inlines the same computation) it returns `(width, height)` of the
row-major grid, width being the first row's length (0 for an empty image). -/
def get_dimensions_of_matrix (img : Img) : ℕ × ℕ := ((img.headD []).length, img.length)

/-- `Srgb::from(pixel).into_format::<f32>()`: a u8 channel value scaled to the
normalized [0,1] f32 domain, exactly `n / 255`. -/
def toF (n : ℕ) : ℚ := (n : ℚ) / 255

/-- `into_format::<u8>()` (palette crate): clamp to [0,1], scale by 255 and
round to the nearest integer. -/
def toU8 (q : ℚ) : ℕ := (⌊min 1 (max 0 q) * 255 + 1 / 2⌋).toNat

/-- One channel of the tap update in `ErrorPropagator::affect`
(`src/dither/error.rs` line 126):
`(pixel[c] as f32 + (error.c * portion as f32) / portions as f32)
  .clamp(0.0, 255.0) as u8`.
The `clamp` bounds the accumulated value into [0, 255] BEFORE it is stored;
the trailing `as u8` truncates. -/
def accChannel (prev : ℕ) (e : ℚ) (portion portions : ℕ) : ℕ :=
  (⌊min 255 (max 0 ((prev : ℚ) + e * (portion : ℚ) / (portions : ℚ)))⌋).toNat

/-- The full-pixel tap update of `ErrorPropagator::affect` lines 125-129. -/
def tapUpdate (e : Q3) (portion portions : ℕ) (p : Pix) : Pix :=
  (accChannel p.1 e.1 portion portions,
    accChannel p.2.1 e.2.1 portion portions,
    accChannel p.2.2 e.2.2 portion portions)

/-- Bounds-checked store at signed target coordinates: Rust casts the i64 sums
to `usize` and reaches the pixel through `get_mut(..).and_then(..)`, so a
negative coordinate (huge after the cast) or an out-of-range one is skipped. -/
def updTarget (img : Img) (ty tx : ℤ) (f : Pix → Pix) : Img :=
  if 0 ≤ ty ∧ 0 ≤ tx then modifyPixel img ty.toNat tx.toNat f else img

/-- The tap loop of `ErrorPropagator::affect` (`src/dither/error.rs` lines
114-131): for every `(x_off, y_off, portion)` in kernel order, add the scaled
error into the in-bounds targets. -/
def applyTaps (matrix : List (ℤ × ℤ × ℕ)) (portions : ℕ) (x y : ℕ) (e : Q3)
    (img : Img) : Img :=
  matrix.foldl
    (fun im t => updTarget im ((y : ℤ) + t.2.1) ((x : ℤ) + t.1) (tapUpdate e t.2.2 portions))
    img

/-- The per-pixel body of `ErrorPropagator::affect` lines 101-131: quantize
the pixel, store the quantized colour, scale the residual by 255 and diffuse
it through the taps. -/
def epStep (matrix : List (ℤ × ℤ × ℕ)) (portions : ℕ) (palette : List Q3)
    (y x : ℕ) (img : Img) : Img :=
  let pix := getPixel img y x
  let rgb : Q3 := (toF pix.1, toF pix.2.1, toF pix.2.2)
  let quantized := quantize_rgb rgb palette
  let img2 := setPixel img y x (toU8 quantized.1, toU8 quantized.2.1, toU8 quantized.2.2)
  let e := compute_rgb_error rgb quantized
  applyTaps matrix portions x y (e.1 * 255, e.2.1 * 255, e.2.2 * 255) img2

/-- `ErrorPropagator::affect` (`src/dither/error.rs` lines 91-136): raster
pass over all pixels; empty images are returned unchanged.  There is no
validation of the kernel and no error path — the function is total. -/
def epAffect (matrix : List (ℤ × ℤ × ℕ)) (portions : ℕ) (palette : List Q3)
    (image : Img) : Img :=
  let dims := get_dimensions_of_matrix image
  if dims.1 = 0 ∨ dims.2 = 0 then image
  else
    (List.range dims.2).foldl
      (fun im y =>
        (List.range dims.1).foldl (fun im2 x => epStep matrix portions palette y x im2) im)
      image

/-- `ErrorPropagator::affect` seen from a configured propagator
(`with_palette` stores the palette that `affect` unwraps). -/
def ErrorPropagator.affect (ep : ErrorPropagator) (palette : List Q3) (img : Img) : Img :=
  epAffect ep.matrix ep.portions palette img

/-- Every pixel of the image is u8-valued. -/
def ImgInDomain (img : Img) : Prop := ∀ row ∈ img, ∀ p ∈ row, PixInDomain p

theorem toU8_le (q : ℚ) : toU8 q ≤ 255 := by
  unfold toU8
  rw [Int.toNat_le]
  have h1 : min 1 (max 0 q) * 255 + 1 / 2 ≤ (511 : ℚ) / 2 := by
    have : min 1 (max 0 q) ≤ 1 := min_le_left _ _
    nlinarith
  calc ⌊min 1 (max 0 q) * 255 + 1 / 2⌋ ≤ ⌊(511 : ℚ) / 2⌋ := Int.floor_le_floor h1
    _ = 255 := by norm_num

theorem accChannel_le (prev : ℕ) (e : ℚ) (portion portions : ℕ) :
    accChannel prev e portion portions ≤ 255 := by
  unfold accChannel
  rw [Int.toNat_le]
  calc ⌊min 255 (max 0 ((prev : ℚ) + e * (portion : ℚ) / (portions : ℚ)))⌋
      ≤ ⌊(255 : ℚ)⌋ := Int.floor_le_floor (min_le_left _ _)
    _ = 255 := by norm_num

theorem pixInDomain_tapUpdate (e : Q3) (portion portions : ℕ) (p : Pix) :
    PixInDomain (tapUpdate e portion portions p) :=
  ⟨accChannel_le _ _ _ _, accChannel_le _ _ _ _, accChannel_le _ _ _ _⟩

theorem imgInDomain_modifyPixel {img : Img} {y x : ℕ} {f : Pix → Pix}
    (h : ImgInDomain img) (hf : ∀ p, PixInDomain (f p)) :
    ImgInDomain (modifyPixel img y x f) := by
  intro row hrow p hp
  rcases mem_listModify hrow with hrow | ⟨r, hr, rfl⟩
  · exact h row hrow p hp
  · rcases mem_listModify hp with hp | ⟨a, ha, rfl⟩
    · exact h r hr p hp
    · exact hf a

theorem imgInDomain_updTarget {img : Img} {ty tx : ℤ} {f : Pix → Pix}
    (h : ImgInDomain img) (hf : ∀ p, PixInDomain (f p)) :
    ImgInDomain (updTarget img ty tx f) := by
  unfold updTarget
  by_cases hc : 0 ≤ ty ∧ 0 ≤ tx
  · rw [if_pos hc]
    exact imgInDomain_modifyPixel h hf
  · rwa [if_neg hc]

theorem imgInDomain_foldl {α : Type} {g : Img → α → Img}
    (hg : ∀ im a, ImgInDomain im → ImgInDomain (g im a)) (l : List α) {img : Img}
    (h : ImgInDomain img) : ImgInDomain (l.foldl g img) := by
  induction l generalizing img with
  | nil => exact h
  | cons a t ih => exact ih (hg img a h)

theorem imgInDomain_applyTaps {matrix : List (ℤ × ℤ × ℕ)} {portions : ℕ}
    {x y : ℕ} {e : Q3} {img : Img} (h : ImgInDomain img) :
    ImgInDomain (applyTaps matrix portions x y e img) :=
  imgInDomain_foldl
    (fun _ t him => imgInDomain_updTarget him (pixInDomain_tapUpdate e t.2.2 portions)) matrix h

theorem imgInDomain_epStep {matrix : List (ℤ × ℤ × ℕ)} {portions : ℕ}
    {palette : List Q3} {y x : ℕ} {img : Img} (h : ImgInDomain img) :
    ImgInDomain (epStep matrix portions palette y x img) := by
  unfold epStep setPixel
  exact imgInDomain_applyTaps
    (imgInDomain_modifyPixel h (fun _ => ⟨toU8_le _, toU8_le _, toU8_le _⟩))

/-- Two images have the same dimensions (row count and each row's length). -/
def sameShape (a b : Img) : Prop :=
  a.length = b.length ∧ ∀ j, (getRow a j).length = (getRow b j).length

theorem sameShape_refl (a : Img) : sameShape a a := ⟨rfl, fun _ => rfl⟩

theorem sameShape_trans {a b c : Img} (h1 : sameShape a b) (h2 : sameShape b c) :
    sameShape a c :=
  ⟨h1.1.trans h2.1, fun j => (h1.2 j).trans (h2.2 j)⟩

theorem sameShape_modifyPixel (img : Img) (y x : ℕ) (f : Pix → Pix) :
    sameShape (modifyPixel img y x f) img :=
  ⟨length_modifyPixel img y x f, rowlen_modifyPixel img y x f⟩

theorem sameShape_updTarget (img : Img) (ty tx : ℤ) (f : Pix → Pix) :
    sameShape (updTarget img ty tx f) img := by
  unfold updTarget
  by_cases hc : 0 ≤ ty ∧ 0 ≤ tx
  · rw [if_pos hc]
    exact sameShape_modifyPixel img ty.toNat tx.toNat f
  · rw [if_neg hc]
    exact sameShape_refl img

theorem sameShape_foldl {α : Type} {g : Img → α → Img}
    (hg : ∀ im a, sameShape (g im a) im) (l : List α) (img : Img) :
    sameShape (l.foldl g img) img := by
  induction l generalizing img with
  | nil => exact sameShape_refl img
  | cons a t ih => exact sameShape_trans (ih (g img a)) (hg img a)

theorem sameShape_applyTaps (matrix : List (ℤ × ℤ × ℕ)) (portions : ℕ)
    (x y : ℕ) (e : Q3) (img : Img) :
    sameShape (applyTaps matrix portions x y e img) img :=
  sameShape_foldl (fun im _ => sameShape_updTarget im _ _ _) matrix img

theorem sameShape_epStep (matrix : List (ℤ × ℤ × ℕ)) (portions : ℕ)
    (palette : List Q3) (y x : ℕ) (img : Img) :
    sameShape (epStep matrix portions palette y x img) img := by
  unfold epStep setPixel
  exact sameShape_trans (sameShape_applyTaps _ _ _ _ _ _) (sameShape_modifyPixel _ _ _ _)

theorem sameShape_epAffect (matrix : List (ℤ × ℤ × ℕ)) (portions : ℕ)
    (palette : List Q3) (img : Img) :
    sameShape (epAffect matrix portions palette img) img := by
  unfold epAffect
  by_cases hc : (get_dimensions_of_matrix img).1 = 0 ∨ (get_dimensions_of_matrix img).2 = 0
  · simp only [if_pos hc]
    exact sameShape_refl img
  · simp only [if_neg hc]
    exact sameShape_foldl
      (fun im y => sameShape_foldl (fun im2 x => sameShape_epStep _ _ _ _ _ _) _ im) _ img

/-- C3 (amended): there is no kernel validation and no error path at all:
`ErrorPropagator::affect` is a total function that runs the pass for ANY
kernel — non-positive divisor or acausal taps included — and always produces
an output image of exactly the input's dimensions; out-of-bounds tap targets
are merely skipped pixel by pixel. -/
theorem diffuse_no_validation_total (matrix : List (ℤ × ℤ × ℕ)) (portions : ℕ)
    (palette : List Q3) (img : Img) :
    (epAffect matrix portions palette img).length = img.length ∧
    ∀ j, (getRow (epAffect matrix portions palette img) j).length = (getRow img j).length :=
  sameShape_epAffect matrix portions palette img

set_option maxHeartbeats 1000000 in
/-- C3 counterexample: the kernel `[(0, -1, 1)]` (dy < 0, violating the
causality invariant) is not rejected: the pass runs, produces an output, and
the acausal tap is honoured — the error of the second-row pixel is added to
the already-quantized first-row pixel, yielding `[[(20,20,20)],[(0,0,0)]]`
from input `[[(10,10,10)],[(20,20,20)]]` with the black-only palette.  No
`InvalidKernel` failure occurs before (or during) the pass and the image is
mutated, not aborted. -/
theorem invalid_kernel_no_failure_cex :
    epAffect [((0 : ℤ), -1, 1)] 1 [((0 : ℚ), 0, 0)] [[(10, 10, 10)], [(20, 20, 20)]]
      = [[(20, 20, 20)], [(0, 0, 0)]] ∧
    ([[(20, 20, 20)], [(0, 0, 0)]] : Img) ≠ [[(10, 10, 10)], [(20, 20, 20)]] := by
  have e1 : epStep [((0 : ℤ), -1, 1)] 1 [((0 : ℚ), 0, 0)] 0 0
      [[(10, 10, 10)], [(20, 20, 20)]] = [[(0, 0, 0)], [(20, 20, 20)]] := by
    norm_num [epStep, getPixel, getRow, toF, quantize_rgb, quantize_colour,
      rgb_weighted_euclidean, f32MAX, setPixel, modifyPixel, listModify, toU8,
      compute_rgb_error, applyTaps, updTarget, tapUpdate, accChannel, Int.toNat_ofNat]
  have e2 : epStep [((0 : ℤ), -1, 1)] 1 [((0 : ℚ), 0, 0)] 1 0
      [[(0, 0, 0)], [(20, 20, 20)]] = [[(20, 20, 20)], [(0, 0, 0)]] := by
    norm_num [epStep, getPixel, getRow, toF, quantize_rgb, quantize_colour,
      rgb_weighted_euclidean, f32MAX, setPixel, modifyPixel, listModify, toU8,
      compute_rgb_error, applyTaps, updTarget, tapUpdate, accChannel, Int.toNat_ofNat]
    decide
  have hd : epAffect [((0 : ℤ), -1, 1)] 1 [((0 : ℚ), 0, 0)] [[(10, 10, 10)], [(20, 20, 20)]]
      = epStep [((0 : ℤ), -1, 1)] 1 [((0 : ℚ), 0, 0)] 1 0
          (epStep [((0 : ℤ), -1, 1)] 1 [((0 : ℚ), 0, 0)] 0 0
            [[(10, 10, 10)], [(20, 20, 20)]]) := by
    norm_num [epAffect, get_dimensions_of_matrix, List.range_succ]
  exact ⟨by rw [hd, e1, e2], by decide⟩

/-- C2 (amended): the tap accumulation DOES clamp: for an in-bounds tap
target the stored value is `clamp(prev + error * weight / divisor, 0, 255)`
truncated to u8 (per channel), so the image — which is itself the
accumulator — never holds a value outside the channel domain; the whole pass
keeps every channel at most 255. -/
theorem accumulation_is_clamped
    (dx dy : ℤ) (w q : ℕ) (x y ty tx : ℕ) (e : Q3) (img : Img)
    (hty : (ty : ℤ) = (y : ℤ) + dy) (htx : (tx : ℤ) = (x : ℤ) + dx)
    (hx : tx < (getRow img ty).length)
    (matrix : List (ℤ × ℤ × ℕ)) (portions : ℕ) (palette : List Q3) (img2 : Img)
    (h2 : ImgInDomain img2) :
    getPixel (applyTaps [(dx, dy, w)] q x y e img) ty tx =
      (accChannel (getPixel img ty tx).1 e.1 w q,
        accChannel (getPixel img ty tx).2.1 e.2.1 w q,
        accChannel (getPixel img ty tx).2.2 e.2.2 w q) ∧
    ImgInDomain (epAffect matrix portions palette img2) := by
  constructor
  · have h1 : applyTaps [(dx, dy, w)] q x y e img =
        updTarget img ((y : ℤ) + dy) ((x : ℤ) + dx) (tapUpdate e w q) := rfl
    rw [h1, ← hty, ← htx]
    unfold updTarget
    rw [if_pos ⟨Int.natCast_nonneg ty, Int.natCast_nonneg tx⟩, Int.toNat_natCast,
      Int.toNat_natCast, getPixel_modifyPixel, if_pos ⟨rfl, rfl, hx⟩]
    rfl
  · unfold epAffect
    by_cases hc : (get_dimensions_of_matrix img2).1 = 0 ∨ (get_dimensions_of_matrix img2).2 = 0
    · simpa only [if_pos hc] using h2
    · simp only [if_neg hc]
      exact imgInDomain_foldl
        (fun im _ him => imgInDomain_foldl (fun im2 _ him2 => imgInDomain_epStep him2) _ him)
        _ h2

/-- C2 witness: a concrete in-bounds tap — the target stores exactly the
clamped accumulated value, and a concrete Floyd-Steinberg pass stays in the
u8 domain. -/
theorem accumulation_is_clamped_witness :
    ((1 : ℕ) : ℤ) = ((0 : ℕ) : ℤ) + 1 ∧
    (1 : ℕ) < (getRow [[(255, 255, 255), (10, 10, 10)]] 0).length ∧
    ImgInDomain [[(50, 50, 50), (10, 10, 10)]] ∧
    getPixel (applyTaps [((1 : ℤ), 0, 7)] 16 0 0 (-205, -205, -205)
        [[(255, 255, 255), (10, 10, 10)]]) 0 1 =
      (accChannel 10 (-205) 7 16, accChannel 10 (-205) 7 16, accChannel 10 (-205) 7 16) ∧
    ImgInDomain (epAffect FLOYD_STEINBERG.matrix FLOYD_STEINBERG.portions [((1 : ℚ), 1, 1)]
      [[(50, 50, 50), (10, 10, 10)]]) := by
  have hdom : ImgInDomain [[(50, 50, 50), (10, 10, 10)]] := by
    norm_num [ImgInDomain, PixInDomain]
    rintro a b c (⟨rfl, rfl, rfl⟩ | ⟨rfl, rfl, rfl⟩) <;> norm_num
  have h := accumulation_is_clamped 1 0 7 16 0 0 0 1 (-205, -205, -205)
    [[(255, 255, 255), (10, 10, 10)]] (by decide) (by decide) (by decide)
    FLOYD_STEINBERG.matrix FLOYD_STEINBERG.portions [((1 : ℚ), 1, 1)]
    [[(50, 50, 50), (10, 10, 10)]] hdom
  exact ⟨by decide, by decide, hdom, h.1, h.2⟩

/-- C2 counterexample: quantizing the 1×2 image `[[(50,50,50),(10,10,10)]]`
against the white-only palette stores white at (0,0) and produces the scaled
error -205 per channel; the Floyd-Steinberg (1,0,7)/16 tap then targets the
pixel holding 10, and the claim predicts the stored value
`10 + (-205)*7/16 = -1275/16`, but the code stores
`clamp(10 - 1435/16, 0, 255) as u8 = 0`: clamping IS applied at accumulation
time and the accumulator cannot hold out-of-domain values. -/
theorem accumulation_no_clamp_cex :
    getPixel (applyTaps FLOYD_STEINBERG.matrix FLOYD_STEINBERG.portions 0 0
        (-205, -205, -205) [[(255, 255, 255), (10, 10, 10)]]) 0 1 = (0, 0, 0) ∧
    (10 : ℚ) + (-205) * 7 / 16 = -1275 / 16 ∧ ((-1275 : ℚ) / 16 < 0) := by
  refine ⟨?_, by norm_num, by norm_num⟩
  norm_num [applyTaps, FLOYD_STEINBERG, updTarget, tapUpdate, accChannel, modifyPixel,
    listModify, getPixel, getRow]

/-- Entrywise `c * M + k`, the ndarray scalar operations used by
`Bayer::dither_matrix` (`src/dither/bayer.rs` lines 37-45). -/
def scaleAdd (c k : ℚ) (M : List (List ℚ)) : List (List ℚ) :=
  M.map (fun row => row.map (fun v => c * v + k))

/-- The recursive-case body of `Bayer::dither_matrix` lines 34-45: with
`mult = size^2`, build `first = mult*M`, `second = mult*M + 2`,
`third = mult*M + 3`, `fourth = mult*M + 1`, stack
`first_col = [first; third]` and `second_col = [second; fourth]` vertically,
concatenate them horizontally and scale by `1/mult`. -/
def bayerAssemble (size : ℕ) (nested : List (List ℚ)) : List (List ℚ) :=
  let mult : ℚ := ((size ^ 2 : ℕ) : ℚ)
  let first := scaleAdd mult 0 nested
  let second := scaleAdd mult 2 nested
  let third := scaleAdd mult 3 nested
  let fourth := scaleAdd mult 1 nested
  let first_col := first ++ third
  let second_col := second ++ fourth
  scaleAdd (1 / mult) 0 (List.zipWith (fun a b => a ++ b) first_col second_col)

/-- `Bayer::dither_matrix` (`src/dither/bayer.rs` lines 29-46).  The Rust
function has no size validation: `dither_matrix(0)` recurses on itself
forever (`0 / 2 = 0` never reaches the `n == 1` base case), which is modelled
as `none`; every size ≥ 1 terminates and produces a matrix, powers of two or
not. -/
def ditherMatrix : ℕ → Option (List (List ℚ))
  | 0 => none
  | 1 => some [[0]]
  | n + 2 => (ditherMatrix ((n + 2) / 2)).map (bayerAssemble (n + 2))
termination_by n => n
decreasing_by
  simp_wf
  omega

/-- The threshold lookup plus per-pixel perturb-and-quantize body of
`Bayer::affect` (`src/dither/bayer.rs` lines 58-70): the matrix is indexed at
`(x mod size, y mod size)` with `unwrap_or(0)` for missing entries, the
offset `(1/3) * (threshold - 0.5)` is added to all three channels, and the
result is quantized against the palette. -/
def bayerPixel (M : List (List ℚ)) (msize : ℕ) (palette : List Q3) (x y : ℕ)
    (pix : Pix) : Pix :=
  let c : Q3 := (toF pix.1, toF pix.2.1, toF pix.2.2)
  let offset : ℚ := (1 / 3) * (((M.getD (x % msize) []).getD (y % msize) 0) - 1 / 2)
  let c2 : Q3 := (c.1 + offset, c.2.1 + offset, c.2.2 + offset)
  let q := quantize_rgb c2 palette
  (toU8 q.1, toU8 q.2.1, toU8 q.2.2)

/-- Processing of one coordinate `(x, y)` in `Bayer::affect`: read the pixel,
replace it in place. -/
def bayerStep (M : List (List ℚ)) (msize : ℕ) (palette : List Q3)
    (img : Img) (p : ℕ × ℕ) : Img :=
  setPixel img p.2 p.1 (bayerPixel M msize palette p.1 p.2 (getPixel img p.2 p.1))

/-- The raster order of the `for y { for x { .. } }` loops. -/
def rasterOrder (xdim ydim : ℕ) : List (ℕ × ℕ) :=
  (List.range ydim).flatMap (fun y => (List.range xdim).map (fun x => (x, y)))

/-- The Bayer pass over an arbitrary processing order. -/
def bayerProcess (M : List (List ℚ)) (msize : ℕ) (palette : List Q3)
    (order : List (ℕ × ℕ)) (img : Img) : Img :=
  order.foldl (bayerStep M msize palette) img

/-- `Bayer::affect` (`src/dither/bayer.rs` lines 49-76): build the threshold
matrix once (diverging for size 0, hence the `Option`), then process every
pixel in raster order; `ydim` is the row count and `xdim` the first row's
length. -/
def Bayer.affect (msize : ℕ) (palette : List Q3) (img : Img) : Option Img :=
  (ditherMatrix msize).map (fun M =>
    bayerProcess M msize palette (rasterOrder (img.headD []).length img.length) img)

theorem ditherMatrix_ge_two (n : ℕ) (h : 2 ≤ n) :
    ditherMatrix n = (ditherMatrix (n / 2)).map (bayerAssemble n) := by
  obtain ⟨k, rfl⟩ : ∃ k, n = k + 2 := ⟨n - 2, by omega⟩
  simp only [ditherMatrix]

theorem ditherMatrix_one : ditherMatrix 1 = some [[0]] := by
  simp only [ditherMatrix]

theorem ditherMatrix_two : ditherMatrix 2 = some [[0, 1 / 2], [3 / 4, 1 / 4]] := by
  rw [ditherMatrix_ge_two 2 (by norm_num)]
  norm_num [ditherMatrix_one, bayerAssemble, scaleAdd]

theorem ditherMatrix_three : ditherMatrix 3 = some [[0, 2 / 9], [1 / 3, 1 / 9]] := by
  rw [ditherMatrix_ge_two 3 (by norm_num)]
  norm_num [ditherMatrix_one, bayerAssemble, scaleAdd]

theorem mem_zipWith_weak {α β γ : Type} {f : α → β → γ} {a : List α} {b : List β} {q : γ}
    (h : q ∈ List.zipWith f a b) : ∃ x ∈ a, ∃ y ∈ b, q = f x y := by
  induction a generalizing b with
  | nil => simp at h
  | cons x xs ih =>
    cases b with
    | nil => simp at h
    | cons y ys =>
      rcases List.mem_cons.mp h with rfl | h
      · exact ⟨x, List.mem_cons_self x xs, y, List.mem_cons_self y ys, rfl⟩
      · obtain ⟨x', hx, y', hy, rfl⟩ := ih h
        exact ⟨x', List.mem_cons_of_mem x hx, y', List.mem_cons_of_mem y hy, rfl⟩

/-- Size and entry invariant for Bayer matrices: n×n, every entry of the form
v/n² with v < n². -/
def matrixEntriesOk (n : ℕ) (M : List (List ℚ)) : Prop :=
  M.length = n ∧ (∀ row ∈ M, row.length = n) ∧
    ∀ row ∈ M, ∀ e ∈ row, ∃ v : ℕ, v < n ^ 2 ∧ e = (v : ℚ) / ((n : ℚ) ^ 2)

theorem bayer_entry_eq {m v cn : ℕ} (hm : 1 ≤ m) (hv : v < m ^ 2) (hcn : cn < 4)
    (c : ℚ) (hc : c = (cn : ℚ)) :
    (1 / ((((2 * m) ^ 2 : ℕ)) : ℚ)) *
        (((((2 * m) ^ 2 : ℕ)) : ℚ) * ((v : ℚ) / ((m : ℚ) ^ 2)) + c) + 0
      = (((4 * v + cn : ℕ)) : ℚ) / (((2 * m : ℕ)) : ℚ) ^ 2 ∧
    4 * v + cn < (2 * m) ^ 2 := by
  have hmQ : ((m : ℚ)) ≠ 0 := Nat.cast_ne_zero.mpr (by omega)
  constructor
  · subst hc
    push_cast
    field_simp
    ring
  · have h4 : (2 * m) ^ 2 = 4 * m ^ 2 := by ring
    omega

theorem bayerAssemble_ok {m : ℕ} (hm : 1 ≤ m) {M : List (List ℚ)}
    (h : matrixEntriesOk m M) : matrixEntriesOk (2 * m) (bayerAssemble (2 * m) M) := by
  obtain ⟨hlen, hrowlen, hent⟩ := h
  have hstruct : bayerAssemble (2 * m) M =
      (List.zipWith (fun a b => a ++ b)
        (scaleAdd ((((2 * m) ^ 2 : ℕ)) : ℚ) 0 M ++ scaleAdd ((((2 * m) ^ 2 : ℕ)) : ℚ) 3 M)
        (scaleAdd ((((2 * m) ^ 2 : ℕ)) : ℚ) 2 M ++ scaleAdd ((((2 * m) ^ 2 : ℕ)) : ℚ) 1 M)).map
        (fun row => row.map (fun v => (1 / ((((2 * m) ^ 2 : ℕ)) : ℚ)) * v + 0)) := rfl
  have hrow_decomp : ∀ row' ∈ bayerAssemble (2 * m) M,
      ∃ x y, row' = (x ++ y).map (fun v => (1 / ((((2 * m) ^ 2 : ℕ)) : ℚ)) * v + 0) ∧
        (∃ r ∈ M, ∃ c : ℚ, ∃ cn : ℕ, cn < 4 ∧ c = (cn : ℚ) ∧
          x = r.map (fun v => ((((2 * m) ^ 2 : ℕ)) : ℚ) * v + c)) ∧
        (∃ r ∈ M, ∃ c : ℚ, ∃ cn : ℕ, cn < 4 ∧ c = (cn : ℚ) ∧
          y = r.map (fun v => ((((2 * m) ^ 2 : ℕ)) : ℚ) * v + c)) := by
    intro row' hrow'
    rw [hstruct] at hrow'
    obtain ⟨z, hz, rfl⟩ := List.mem_map.mp hrow'
    obtain ⟨x, hx, y, hy, rfl⟩ := mem_zipWith_weak hz
    refine ⟨x, y, rfl, ?_, ?_⟩
    · rcases List.mem_append.mp hx with hx | hx
      · obtain ⟨r, hr, rfl⟩ := List.mem_map.mp hx
        exact ⟨r, hr, 0, 0, by norm_num, by norm_num, rfl⟩
      · obtain ⟨r, hr, rfl⟩ := List.mem_map.mp hx
        exact ⟨r, hr, 3, 3, by norm_num, by norm_num, rfl⟩
    · rcases List.mem_append.mp hy with hy | hy
      · obtain ⟨r, hr, rfl⟩ := List.mem_map.mp hy
        exact ⟨r, hr, 2, 2, by norm_num, by norm_num, rfl⟩
      · obtain ⟨r, hr, rfl⟩ := List.mem_map.mp hy
        exact ⟨r, hr, 1, 1, by norm_num, by norm_num, rfl⟩
  refine ⟨?_, ?_, ?_⟩
  · rw [hstruct]
    simp only [List.length_map, List.length_zipWith, List.length_append, scaleAdd, hlen]
    omega
  · intro row' hrow'
    obtain ⟨x, y, rfl, ⟨r1, hr1, c1, cn1, _, _, rfl⟩, ⟨r2, hr2, c2, cn2, _, _, rfl⟩⟩ :=
      hrow_decomp row' hrow'
    simp only [List.length_map, List.length_append, hrowlen r1 hr1, hrowlen r2 hr2]
    omega
  · intro row' hrow' e he
    obtain ⟨x, y, rfl, ⟨r1, hr1, c1, cn1, hcn1, hc1, rfl⟩, ⟨r2, hr2, c2, cn2, hcn2, hc2, rfl⟩⟩ :=
      hrow_decomp row' hrow'
    obtain ⟨e₁, he₁, rfl⟩ := List.mem_map.mp he
    rcases List.mem_append.mp he₁ with he₁ | he₁
    · obtain ⟨e₀, he₀, rfl⟩ := List.mem_map.mp he₁
      obtain ⟨v, hv, rfl⟩ := hent r1 hr1 e₀ he₀
      obtain ⟨heq, hbound⟩ := bayer_entry_eq hm hv hcn1 c1 hc1
      refine ⟨4 * v + cn1, hbound, ?_⟩
      rw [heq]
    · obtain ⟨e₀, he₀, rfl⟩ := List.mem_map.mp he₁
      obtain ⟨v, hv, rfl⟩ := hent r2 hr2 e₀ he₀
      obtain ⟨heq, hbound⟩ := bayer_entry_eq hm hv hcn2 c2 hc2
      refine ⟨4 * v + cn2, hbound, ?_⟩
      rw [heq]

theorem ditherMatrix_pow_ok (k : ℕ) :
    ∃ M, ditherMatrix (2 ^ k) = some M ∧ matrixEntriesOk (2 ^ k) M := by
  induction k with
  | zero =>
    refine ⟨[[0]], by simpa using ditherMatrix_one, by simp [matrixEntriesOk], ?_, ?_⟩
    · intro row hrow
      simp only [List.mem_singleton] at hrow
      subst hrow
      simp
    · intro row hrow e he
      simp only [List.mem_singleton] at hrow
      subst hrow
      simp only [List.mem_singleton] at he
      subst he
      exact ⟨0, by norm_num, by norm_num⟩
  | succ k ih =>
    obtain ⟨M, hM, hok⟩ := ih
    have h1 : (1 : ℕ) ≤ 2 ^ k := Nat.one_le_two_pow
    have h2 : (2 : ℕ) ^ (k + 1) = 2 * 2 ^ k := by ring
    rw [h2, ditherMatrix_ge_two (2 * 2 ^ k) (by omega), Nat.mul_div_cancel_left _ (by norm_num),
      hM]
    exact ⟨_, rfl, bayerAssemble_ok h1 hok⟩

/-- C4: the Bayer matrix builder follows exactly the stated recursion —
`build(1) = [[0]]`, and for even sizes the result is the assembled 2×2 block
layout `[[mult*M, mult*M+2],[mult*M+3, mult*M+1]] / mult` over `build(size/2)`
with `mult = size^2` — and for every power-of-two size `2^k` it returns a
`2^k × 2^k` matrix all of whose entries lie in [0, 1); in particular
`build(2) = [[0, 1/2], [3/4, 1/4]]`. -/
theorem bayer_matrix_recursion (k m : ℕ) (hm : 1 ≤ m) :
    ditherMatrix 1 = some [[0]] ∧
    ditherMatrix (2 * m) = (ditherMatrix m).map (bayerAssemble (2 * m)) ∧
    (∃ M, ditherMatrix (2 ^ k) = some M ∧ M.length = 2 ^ k ∧
      (∀ row ∈ M, row.length = 2 ^ k) ∧ ∀ row ∈ M, ∀ e ∈ row, 0 ≤ e ∧ e < 1) ∧
    ditherMatrix 2 = some [[0, 1 / 2], [3 / 4, 1 / 4]] := by
  refine ⟨ditherMatrix_one, ?_, ?_, ditherMatrix_two⟩
  · rw [ditherMatrix_ge_two (2 * m) (by omega), Nat.mul_div_cancel_left _ (by norm_num)]
  · obtain ⟨M, hM, hok⟩ := ditherMatrix_pow_ok k
    refine ⟨M, hM, hok.1, hok.2.1, ?_⟩
    intro row hrow e he
    obtain ⟨v, hv, rfl⟩ := hok.2.2 row hrow e he
    have hpos : (0 : ℚ) < ((2 ^ k : ℕ) : ℚ) ^ 2 := by
      have : (0 : ℕ) < 2 ^ k := Nat.pos_pow_of_pos k (by norm_num)
      positivity
    constructor
    · positivity
    · rw [div_lt_one hpos]
      exact_mod_cast hv

/-- C4 witness: `bayer_matrix_recursion` instantiated at k = 1, m = 1. -/
theorem bayer_matrix_recursion_witness :
    (1 : ℕ) ≤ 1 ∧ ditherMatrix 2 = some [[0, 1 / 2], [3 / 4, 1 / 4]] :=
  ⟨by norm_num, (bayer_matrix_recursion 1 1 (by norm_num)).2.2.2⟩

/-- C5 (amended): there is no `InvalidMatrixSize` validation anywhere: for
EVERY size ≥ 1 — powers of two or not — `dither_matrix` terminates and
returns a matrix, and `Bayer::affect` produces an output image; only size 0
never returns (infinite recursion, modelled as `none`), with no descriptive
error either. -/
theorem bayer_no_size_validation (n : ℕ) (hn : 1 ≤ n) (palette : List Q3) (img : Img) :
    (ditherMatrix n).isSome ∧ (Bayer.affect n palette img).isSome := by
  have main : ∀ n, 1 ≤ n → (ditherMatrix n).isSome := by
    intro n
    induction n using Nat.strong_induction_on with
    | _ n ih =>
      intro hn
      rcases eq_or_lt_of_le hn with h1 | h2
      · rw [← h1, ditherMatrix_one]
        rfl
      · rw [ditherMatrix_ge_two n h2]
        obtain ⟨M, hM⟩ := Option.isSome_iff_exists.mp (ih (n / 2) (by omega) (by omega))
        rw [hM]
        rfl
  refine ⟨main n hn, ?_⟩
  unfold Bayer.affect
  obtain ⟨M, hM⟩ := Option.isSome_iff_exists.mp (main n hn)
  rw [hM]
  rfl

/-- C5 witness: `bayer_no_size_validation` at the non-power-of-two size 3. -/
theorem bayer_no_size_validation_witness :
    (1 : ℕ) ≤ 3 ∧ (ditherMatrix 3).isSome ∧
      (Bayer.affect 3 [((0 : ℚ), 0, 0)] [[(1, 2, 3)]]).isSome := by
  have h := bayer_no_size_validation 3 (by norm_num) [((0 : ℚ), 0, 0)] [[(1, 2, 3)]]
  exact ⟨by norm_num, h.1, h.2⟩

/-- C5 counterexample: `dither_matrix(3)` does not fail — there is no
`InvalidMatrixSize` error; the non-power-of-two size silently yields the 2×2
matrix of the recursion taken with multiplier 9. -/
theorem bayer_matrix_size_cex :
    ditherMatrix 3 = some [[0, 2 / 9], [1 / 3, 1 / 9]] ∧ ditherMatrix 3 ≠ none := by
  refine ⟨ditherMatrix_three, ?_⟩
  rw [ditherMatrix_three]
  simp

theorem sameShape_symm {a b : Img} (h : sameShape a b) : sameShape b a :=
  ⟨h.1.symm, fun j => (h.2 j).symm⟩

theorem sameShape_bayerStep (M : List (List ℚ)) (msize : ℕ) (palette : List Q3)
    (img : Img) (p : ℕ × ℕ) : sameShape (bayerStep M msize palette img p) img := by
  unfold bayerStep setPixel
  exact sameShape_modifyPixel _ _ _ _

theorem sameShape_bayerProcess (M : List (List ℚ)) (msize : ℕ) (palette : List Q3)
    (order : List (ℕ × ℕ)) (img : Img) :
    sameShape (bayerProcess M msize palette order img) img :=
  sameShape_foldl (fun im p => sameShape_bayerStep M msize palette im p) order img

/-- Two images of equal shape agreeing on every in-range pixel are equal. -/
theorem img_ext {a b : Img} (hs : sameShape a b)
    (h : ∀ y x, x < (getRow b y).length → getPixel a y x = getPixel b y x) : a = b := by
  apply List.ext_getElem hs.1
  intro j h1 h2
  have hrow : getRow a j = getRow b j := by
    apply List.ext_getElem (hs.2 j)
    intro i hi1 hi2
    have hp := h j i hi2
    simp only [getPixel] at hp
    rwa [List.getD_eq_getElem _ _ hi1, List.getD_eq_getElem _ _ hi2] at hp
  have e1 : getRow a j = a[j] := List.getD_eq_getElem a [] h1
  have e2 : getRow b j = b[j] := List.getD_eq_getElem b [] h2
  rw [← e1, ← e2, hrow]

/-- The Bayer pass over a duplicate-free order changes exactly the processed
in-range coordinates, each as a pure function of the source pixel there. -/
theorem bayerProcess_pointwise (M : List (List ℚ)) (msize : ℕ) (palette : List Q3)
    (order : List (ℕ × ℕ)) (hnd : order.Nodup) (img : Img) (y x : ℕ)
    (hx : x < (getRow img y).length) :
    getPixel (bayerProcess M msize palette order img) y x =
      if (x, y) ∈ order then bayerPixel M msize palette x y (getPixel img y x)
      else getPixel img y x := by
  induction order generalizing img with
  | nil => simp [bayerProcess]
  | cons p t ih =>
    have hpt : p ∉ t := (List.nodup_cons.mp hnd).1
    have hnd' : t.Nodup := (List.nodup_cons.mp hnd).2
    have hshape : (getRow (bayerStep M msize palette img p) y).length
        = (getRow img y).length := (sameShape_bayerStep M msize palette img p).2 y
    have hstep : bayerProcess M msize palette (p :: t) img =
        bayerProcess M msize palette t (bayerStep M msize palette img p) := rfl
    rw [hstep, ih hnd' _ (by rw [hshape]; exact hx)]
    by_cases hp : p = (x, y)
    · subst hp
      rw [if_neg hpt]
      have hg : getPixel (bayerStep M msize palette img (x, y)) y x
          = bayerPixel M msize palette x y (getPixel img y x) := by
        unfold bayerStep setPixel
        rw [getPixel_modifyPixel, if_pos ⟨rfl, rfl, hx⟩]
      rw [hg, if_pos (List.mem_cons_self _ _)]
    · have hg : getPixel (bayerStep M msize palette img p) y x = getPixel img y x := by
        unfold bayerStep setPixel
        rw [getPixel_modifyPixel, if_neg]
        intro hc
        exact hp (Prod.ext hc.2.1.symm hc.1.symm).symm
      rw [hg]
      by_cases hmem : (x, y) ∈ t
      · rw [if_pos hmem, if_pos (List.mem_cons_of_mem p hmem)]
      · rw [if_neg hmem, if_neg]
        intro hc
        rcases List.mem_cons.mp hc with he | he
        · exact hp he.symm
        · exact hmem he

theorem mem_rasterOrder (xdim ydim x y : ℕ) :
    (x, y) ∈ rasterOrder xdim ydim ↔ x < xdim ∧ y < ydim := by
  simp only [rasterOrder, List.mem_flatMap, List.mem_map, List.mem_range, Prod.mk.injEq]
  constructor
  · rintro ⟨y', hy', x', hx', rfl, rfl⟩
    exact ⟨hx', hy'⟩
  · rintro ⟨hx, hy⟩
    exact ⟨y, hy, x, hx, rfl, rfl⟩

theorem rasterOrder_nodup (xdim ydim : ℕ) : (rasterOrder xdim ydim).Nodup := by
  rw [rasterOrder, List.nodup_flatMap]
  constructor
  · intro yv _
    exact (List.nodup_range xdim).map (fun a b hab => (Prod.mk.injEq _ _ _ _).mp hab |>.1)
  · have hne : (List.range ydim).Pairwise (· ≠ ·) := List.nodup_range ydim
    refine hne.imp ?_
    intro y1 y2 hy a ha hb
    obtain ⟨x1, _, rfl⟩ := List.mem_map.mp ha
    obtain ⟨x2, _, he⟩ := List.mem_map.mp hb
    exact hy ((Prod.mk.injEq _ _ _ _).mp he.symm).2

/-- Every in-range pixel of a Bayer pass over any duplicate-free order that is
a permutation of the raster order is the pointwise Bayer function of the
source pixel at the same coordinates. -/
theorem bayerProcess_covers (M : List (List ℚ)) (msize : ℕ) (palette : List Q3)
    (img : Img)
    (hrect : ∀ j, j < img.length → (getRow img j).length = (img.headD []).length)
    (order : List (ℕ × ℕ)) (hnd : order.Nodup)
    (hperm : order.Perm (rasterOrder (img.headD []).length img.length))
    (y x : ℕ) (hx : x < (getRow img y).length) :
    getPixel (bayerProcess M msize palette order img) y x =
      bayerPixel M msize palette x y (getPixel img y x) := by
  rw [bayerProcess_pointwise M msize palette order hnd img y x hx]
  have hy : y < img.length := by
    by_contra hy
    rw [getRow, List.getD_eq_default _ _ (by omega)] at hx
    simp at hx
  have hxdim : x < (img.headD []).length := by
    rw [← hrect y hy]
    exact hx
  rw [if_pos (hperm.mem_iff.mpr ((mem_rasterOrder _ _ x y).mpr ⟨hxdim, hy⟩))]

/-- C8: in ordered (Bayer) dithering every output pixel is a function only of
the source pixel at the same coordinates, the coordinates, the threshold
matrix and the palette; `Bayer::affect` equals the pass over raster order,
and processing the pixels in ANY duplicate-free permutation of raster order
yields exactly the same output image. -/
theorem ordered_dither_order_independent
    (msize : ℕ) (palette : List Q3) (img : Img) (M : List (List ℚ))
    (hM : ditherMatrix msize = some M)
    (hrect : ∀ j, j < img.length → (getRow img j).length = (img.headD []).length)
    (order : List (ℕ × ℕ)) (hnd : order.Nodup)
    (hperm : order.Perm (rasterOrder (img.headD []).length img.length)) :
    Bayer.affect msize palette img = some (bayerProcess M msize palette order img) ∧
    ∀ y x, x < (getRow img y).length →
      getPixel (bayerProcess M msize palette order img) y x =
        bayerPixel M msize palette x y (getPixel img y x) := by
  constructor
  · unfold Bayer.affect
    rw [hM]
    simp only [Option.map_some']
    congr 1
    apply img_ext
    · exact sameShape_trans (sameShape_bayerProcess M msize palette _ img)
        (sameShape_symm (sameShape_bayerProcess M msize palette order img))
    · intro y x hx
      have hx' : x < (getRow img y).length := by
        rwa [(sameShape_bayerProcess M msize palette order img).2 y] at hx
      rw [bayerProcess_covers M msize palette img hrect _
          (rasterOrder_nodup _ _) (List.Perm.refl _) y x hx',
        bayerProcess_covers M msize palette img hrect order hnd hperm y x hx']
  · exact bayerProcess_covers M msize palette img hrect order hnd hperm

/-- C8 witness: a 1×2 image processed in reversed order yields the same
output as `Bayer::affect`. -/
theorem ordered_dither_order_independent_witness :
    ([((1 : ℕ), (0 : ℕ)), (0, 0)] : List (ℕ × ℕ)).Nodup ∧
    ([((1 : ℕ), (0 : ℕ)), (0, 0)] : List (ℕ × ℕ)).Perm
      (rasterOrder ([[((10 : ℕ), (10 : ℕ), (10 : ℕ)), (20, 20, 20)]].headD []).length 1) ∧
    Bayer.affect 1 [((0 : ℚ), 0, 0)] [[(10, 10, 10), (20, 20, 20)]] =
      some (bayerProcess [[0]] 1 [((0 : ℚ), 0, 0)] [(1, 0), (0, 0)]
        [[(10, 10, 10), (20, 20, 20)]]) := by
  have h := ordered_dither_order_independent 1 [((0 : ℚ), 0, 0)]
    [[(10, 10, 10), (20, 20, 20)]] [[0]] ditherMatrix_one (by decide)
    [(1, 0), (0, 0)] (by decide) (by decide)
  exact ⟨by decide, by decide, h.1⟩

/-- `map_to_2d` (`src/utils/numops.rs` lines 9-14): linear index to
`(x, y) = (i mod xdim, i div xdim)`. -/
def map_to_2d (cell_no xdim : ℕ) : ℕ × ℕ := (cell_no % xdim, cell_no / xdim)

/-- Modelled from the spec: `pixel/mono.rs` (`MonoPixel`, `ONE_BIT`,
`quantize`, `get_error`, conversion from `Rgb<u8>`) is declared in
`src/pixel/mod.rs` (`pub mod mono;`) but missing from the sources.  Modelled
after the quantizer contract of spec §4.1 (linear scan, strict less-than
running minimum, first entry wins) over the one-bit palette, with the mono
value the channel average used by the other mono path (`src/dither/basic.rs`)
and the error the signed difference. -/
def monoFrom (p : Pix) : ℕ := (p.1 + p.2.1 + p.2.2) / 3

/-- Modelled from the spec: the missing `pixel::mono::ONE_BIT` palette,
black and white. -/
def ONE_BIT : List ℕ := [0, 255]

/-- Modelled from the spec: the missing `MonoPixel::quantize`, nearest entry
by squared difference with strict less-than running minimum. -/
def monoQuantize (v : ℕ) (palette : List ℕ) : ℕ :=
  (palette.foldl
    (fun (acc : ℕ × ℤ) (p : ℕ) =>
      if ((p : ℤ) - v) ^ 2 < acc.2 then (p, ((p : ℤ) - v) ^ 2) else acc)
    (v, f64MAX)).1

/-- Modelled from the spec: the missing `MonoPixel::get_error`. -/
def monoGetError (v q : ℕ) : ℤ := (v : ℤ) - q

/-- One channel of the legacy tap update (`src/dither/errorpropagate.rs`
lines 42-47 and 89-94): i32 arithmetic, truncating division (`Int.tdiv` is
Rust's `/` on i32), `clamp(0, 255) as u8`. -/
def legacyAcc (prev : ℕ) (err : ℤ) (portion portions : ℕ) : ℕ :=
  (min 255 (max 0 ((prev : ℤ) + Int.tdiv (err * (portion : ℤ)) (portions : ℤ)))).toNat

/-- The legacy tap loop (`src/dither/errorpropagate.rs` lines 30-49, 77-96):
target `(x + dx, y + dy)` as u32, bounds-checked against `(xdim, ydim)`
before `get_pixel_mut_checked`. -/
def legacyTaps (matrix : List (ℤ × ℤ × ℕ)) (portions : ℕ) (xdim ydim : ℕ)
    (x y : ℕ) (e : ℤ × ℤ × ℤ) (img : Img) : Img :=
  matrix.foldl
    (fun im t =>
      if 0 ≤ (x : ℤ) + t.1 ∧ (x : ℤ) + t.1 < (xdim : ℤ) ∧
          0 ≤ (y : ℤ) + t.2.1 ∧ (y : ℤ) + t.2.1 < (ydim : ℤ) then
        modifyPixel im ((y : ℤ) + t.2.1).toNat ((x : ℤ) + t.1).toNat
          (fun p =>
            (legacyAcc p.1 e.1 t.2.2 portions,
              legacyAcc p.2.1 e.2.1 t.2.2 portions,
              legacyAcc p.2.2 e.2.2 t.2.2 portions))
      else im)
    img

/-- Pixel body of `error_propagate_through_pixels` (mono path): quantize the
averaged value against `ONE_BIT`, write it to all three channels, diffuse the
integer error. -/
def epLegacyMonoStep (matrix : List (ℤ × ℤ × ℕ)) (portions : ℕ) (xdim ydim : ℕ)
    (img : Img) (i : ℕ) : Img :=
  let xy := map_to_2d i xdim
  let mono := monoFrom (getPixel img xy.2 xy.1)
  let quantized := monoQuantize mono ONE_BIT
  let img2 := setPixel img xy.2 xy.1 (quantized, quantized, quantized)
  let err := monoGetError mono quantized
  legacyTaps matrix portions xdim ydim xy.1 xy.2 (err, err, err) img2

/-- `error_propagate_through_pixels` (`src/dither/errorpropagate.rs` lines
11-51): the linear pixel loop runs `i` over `xdim .. xdim*ydim`, STARTING AT
`xdim` — the whole first row is skipped. -/
def error_propagate_through_pixels (matrix : List (ℤ × ℤ × ℕ)) (portions : ℕ)
    (img : Img) : Img :=
  let xdim := (img.headD []).length
  let ydim := img.length
  (List.range' xdim (xdim * ydim - xdim)).foldl
    (epLegacyMonoStep matrix portions xdim ydim) img

/-- Modelled from the spec: the `RgbPixel` revision used by
`src/dither/errorpropagate.rs` (providing `get_u8` and a normalized-domain
`get_error` whose value times 255, truncated to i32, is the exact integer
channel difference) is not the `src/pixel/rgb.rs` present in the sources;
the composite `(get_error(..) * 255.0) as i32` is therefore the integer
per-channel difference of `src/pixel/rgb.rs`'s `get_error`. -/
def legacyRgbError255 (a b : Pix) : ℤ × ℤ × ℤ := RgbPixel.getError a b

/-- Pixel body of `error_propagate_through_pixels_rgb`: quantize against the
RGB palette, store the quantized pixel, diffuse the scaled integer error. -/
def epLegacyRgbStep (matrix : List (ℤ × ℤ × ℕ)) (portions : ℕ)
    (palette : List Pix) (xdim ydim : ℕ) (img : Img) (i : ℕ) : Img :=
  let xy := map_to_2d i xdim
  let rgb := getPixel img xy.2 xy.1
  let quantized := RgbPixel.quantize rgb palette
  let img2 := setPixel img xy.2 xy.1 quantized
  let e := legacyRgbError255 rgb quantized
  legacyTaps matrix portions xdim ydim xy.1 xy.2 e img2

/-- `error_propagate_through_pixels_rgb` (`src/dither/errorpropagate.rs`
lines 53-98): same linear loop starting at index `xdim`. -/
def error_propagate_through_pixels_rgb (matrix : List (ℤ × ℤ × ℕ)) (portions : ℕ)
    (palette : List Pix) (img : Img) : Img :=
  let xdim := (img.headD []).length
  let ydim := img.length
  (List.range' xdim (xdim * ydim - xdim)).foldl
    (epLegacyRgbStep matrix portions palette xdim ydim) img

theorem getRow0_modifyPixel {img : Img} {y x : ℕ} {f : Pix → Pix} (hy : y ≠ 0) :
    getRow (modifyPixel img y x f) 0 = getRow img 0 := by
  rw [getRow_modifyPixel, if_neg hy]

theorem getRow0_foldl {α : Type} {g : Img → α → Img} {l : List α}
    (hg : ∀ im a, a ∈ l → getRow (g im a) 0 = getRow im 0) (img : Img) :
    getRow (l.foldl g img) 0 = getRow img 0 := by
  induction l generalizing img with
  | nil => rfl
  | cons a t ih =>
    rw [List.foldl_cons, ih (fun im b hb => hg im b (List.mem_cons_of_mem a hb)),
      hg img a (List.mem_cons_self a t)]

theorem getRow0_legacyTaps {matrix : List (ℤ × ℤ × ℕ)} {portions xdim ydim x y : ℕ}
    {e : ℤ × ℤ × ℤ} {img : Img} (hdy : ∀ t ∈ matrix, 0 ≤ t.2.1) (hy : 1 ≤ y) :
    getRow (legacyTaps matrix portions xdim ydim x y e img) 0 = getRow img 0 := by
  unfold legacyTaps
  refine getRow0_foldl (fun im t ht => ?_) img
  by_cases hc : 0 ≤ (x : ℤ) + t.1 ∧ (x : ℤ) + t.1 < (xdim : ℤ) ∧
      0 ≤ (y : ℤ) + t.2.1 ∧ (y : ℤ) + t.2.1 < (ydim : ℤ)
  · rw [if_pos hc]
    refine getRow0_modifyPixel ?_
    have hd := hdy t ht
    omega
  · rw [if_neg hc]

theorem getRow0_epLegacyMonoStep {matrix : List (ℤ × ℤ × ℕ)} {portions xdim ydim i : ℕ}
    {img : Img} (hdy : ∀ t ∈ matrix, 0 ≤ t.2.1) (hx : xdim ≤ i) (hx1 : 1 ≤ xdim) :
    getRow (epLegacyMonoStep matrix portions xdim ydim img i) 0 = getRow img 0 := by
  have hy : 1 ≤ i / xdim := (Nat.one_le_div_iff (by omega)).mpr hx
  unfold epLegacyMonoStep map_to_2d setPixel
  rw [getRow0_legacyTaps hdy hy, getRow0_modifyPixel (by omega)]

theorem getRow0_epLegacyRgbStep {matrix : List (ℤ × ℤ × ℕ)} {portions xdim ydim i : ℕ}
    {palette : List Pix} {img : Img} (hdy : ∀ t ∈ matrix, 0 ≤ t.2.1)
    (hx : xdim ≤ i) (hx1 : 1 ≤ xdim) :
    getRow (epLegacyRgbStep matrix portions palette xdim ydim img i) 0 = getRow img 0 := by
  have hy : 1 ≤ i / xdim := (Nat.one_le_div_iff (by omega)).mpr hx
  unfold epLegacyRgbStep map_to_2d setPixel
  rw [getRow0_legacyTaps hdy hy, getRow0_modifyPixel (by omega)]

/-- C10: for every image of height ≥ 1 and every kernel all of whose taps
have dy ≥ 0 (which all legacy kernel matrices satisfy), both legacy diffusion
passes leave the entire first row untouched: the linear pixel loop starts at
index `xdim`, so first-row pixels are never quantized, and every tap target
row `y + dy` of a processed pixel has `y ≥ 1`, so the first row never
receives propagated error either. -/
theorem legacy_first_row_unchanged (matrix : List (ℤ × ℤ × ℕ)) (portions : ℕ)
    (palette : List Pix) (img : Img)
    (hdy : ∀ t ∈ matrix, 0 ≤ t.2.1) (hh : 1 ≤ img.length) :
    getRow (error_propagate_through_pixels matrix portions img) 0 = getRow img 0 ∧
    getRow (error_propagate_through_pixels_rgb matrix portions palette img) 0
      = getRow img 0 := by
  have hstep : ∀ i ∈ List.range' (img.headD []).length
      ((img.headD []).length * img.length - (img.headD []).length),
      (img.headD []).length ≤ i ∧ 1 ≤ (img.headD []).length := by
    intro i hi
    obtain ⟨h1, h2⟩ := List.mem_range'_1.mp hi
    constructor
    · exact h1
    · by_contra hx1
      have hx0 : (img.headD []).length = 0 := by omega
      rw [hx0, Nat.zero_mul] at h2
      omega
  constructor
  · unfold error_propagate_through_pixels
    refine getRow0_foldl (fun im i hi => ?_) img
    obtain ⟨h1, h2⟩ := hstep i hi
    exact getRow0_epLegacyMonoStep hdy h1 h2
  · unfold error_propagate_through_pixels_rgb
    refine getRow0_foldl (fun im i hi => ?_) img
    obtain ⟨h1, h2⟩ := hstep i hi
    exact getRow0_epLegacyRgbStep hdy h1 h2

/-- C10 witness: the Atkinson legacy matrix (taps with dy ∈ {0,1,2}) on a
concrete 1×2-column image of height 2 leaves row 0 unchanged in both passes. -/
theorem legacy_first_row_unchanged_witness :
    (∀ t ∈ atkinson_MATRIX.1, 0 ≤ t.2.1) ∧
    1 ≤ ([[((100 : ℕ), 100, 100)], [(200, 200, 200)]] : Img).length ∧
    getRow (error_propagate_through_pixels atkinson_MATRIX.1 atkinson_MATRIX.2
        [[(100, 100, 100)], [(200, 200, 200)]]) 0
      = getRow [[(100, 100, 100)], [(200, 200, 200)]] 0 ∧
    getRow (error_propagate_through_pixels_rgb atkinson_MATRIX.1 atkinson_MATRIX.2
        [(0, 0, 0), (255, 255, 255)] [[(100, 100, 100)], [(200, 200, 200)]]) 0
      = getRow [[(100, 100, 100)], [(200, 200, 200)]] 0 := by
  have h := legacy_first_row_unchanged atkinson_MATRIX.1 atkinson_MATRIX.2
    [(0, 0, 0), (255, 255, 255)] [[(100, 100, 100)], [(200, 200, 200)]]
    (by decide) (by decide)
  exact ⟨by decide, by decide, h.1, h.2⟩
